import Mathlib

/-!
Verification of the work-stealing task scheduler (`TaskSystem.h` /
`TaskSystem.cpp`).  The C++ code is shallowly embedded: per-worker deques
become `List MyEngine.Task`, the priority enum becomes an inductive with its
underlying numeric value, `uint32_t` arithmetic is `Nat` arithmetic reduced
`% 2^32` wherever C++ overflow can occur, and the scheduler's concurrent
worker loop becomes a step relation on an explicit system state.
-/

namespace MyEngine

/-- Model of `enum class TaskPriority` (TaskSystem.h lines 24-29):
Background = 0, Low = 1, Normal = 2, High = 3. -/
inductive TaskPriority where
  | Background
  | Low
  | Normal
  | High
deriving DecidableEq

/-- Underlying integer value of the `enum class` constant; C++ relational
operators on the scoped enum compare these values. -/
def TaskPriority.val : TaskPriority → Nat
  | .Background => 0
  | .Low => 1
  | .Normal => 2
  | .High => 3

/-- Model of `struct Task` (TaskSystem.h lines 68-76).  The callable is not
modelled; instead each task carries `id`, a submission timestamp that gives
tasks an identity (fresh ids are assigned in submission order), which is what
the stability and at-most-once-execution statements are about. -/
structure Task where
  Priority : TaskPriority
  id : Nat
deriving DecidableEq

/-- Model of `TaskSystem::PushTask` (TaskSystem.cpp lines 204-213): walk from
the front past every element whose priority is `>=` the new task's priority
and insert there. -/
def PushTask (task : Task) : List Task → List Task
  | [] => [task]
  | x :: xs =>
    if task.Priority.val ≤ x.Priority.val then x :: PushTask task xs
    else task :: x :: xs

/-- Model of `TaskSystem::TryPopTask` (TaskSystem.cpp lines 193-202): under a
successful `try_to_lock` (`lockOk`), pop the front of the queue if non-empty.
Returns the popped task and the remaining queue. -/
def TryPopTask (lockOk : Bool) (q : List Task) : Option (Task × List Task) :=
  if lockOk then
    match q with
    | [] => none
    | t :: ts => some (t, ts)
  else none

/-- Model of `TaskSystem::TryStealTask` (TaskSystem.cpp lines 171-191): walk a
sequence of probed queue indices (the code draws `m_Queues.size()` random
indices); at the first probe whose `try_to_lock` succeeds (`lockable i`) on a
non-empty queue, remove and return that queue's back element. -/
def TryStealTask (queues : List (List Task)) (lockable : Nat → Bool) :
    List Nat → Option (Task × Nat × List (List Task))
  | [] => none
  | i :: rest =>
    if lockable i then
      match (queues.getD i []).getLast? with
      | some t => some (t, i, queues.set i (queues.getD i []).dropLast)
      | none => TryStealTask queues lockable rest
    else TryStealTask queues lockable rest

/-- Ordering in which a worker queue is kept (TaskSystem.cpp `PushTask`):
strictly descending priority, with ties in strictly ascending id
(= insertion) order. -/
def QRel (a b : Task) : Prop :=
  b.Priority.val < a.Priority.val ∨
    (b.Priority.val = a.Priority.val ∧ a.id < b.id)

instance (a b : Task) : Decidable (QRel a b) := by
  unfold QRel
  infer_instance

/-- A queue satisfying the documented sorted invariant. -/
def SortedQ (q : List Task) : Prop := List.Pairwise QRel q

instance (q : List Task) : Decidable (SortedQ q) := by
  unfold SortedQ
  infer_instance

/-- Membership after a `PushTask`: only the new task is added. -/
theorem mem_PushTask {t y : Task} :
    ∀ {q : List Task}, y ∈ PushTask t q → y = t ∨ y ∈ q := by
  intro q
  induction q with
  | nil =>
    intro h
    simp [PushTask] at h
    exact Or.inl h
  | cons x xs ih =>
    intro h
    by_cases hc : t.Priority.val ≤ x.Priority.val
    · simp only [PushTask, if_pos hc, List.mem_cons] at h
      rcases h with h | h
      · exact Or.inr (by simp [h])
      · rcases ih h with h' | h'
        · exact Or.inl h'
        · exact Or.inr (by simp [h'])
    · simp only [PushTask, if_neg hc, List.mem_cons] at h
      rcases h with h | h | h
      · exact Or.inl h
      · exact Or.inr (by simp [h])
      · exact Or.inr (by simp [h])

/-- `PushTask` preserves the sorted-queue invariant whenever the inserted
task's id is fresh (larger than every id already in the queue). -/
theorem PushTask_sorted {t : Task} :
    ∀ {q : List Task}, SortedQ q → (∀ u ∈ q, u.id < t.id) →
      SortedQ (PushTask t q) := by
  intro q
  induction q with
  | nil =>
    intro _ _
    simp [PushTask, SortedQ]
  | cons x xs ih =>
    intro hs hid
    rcases (List.pairwise_cons.mp hs) with ⟨hx, hxs⟩
    by_cases hc : t.Priority.val ≤ x.Priority.val
    · simp only [SortedQ, PushTask, if_pos hc]
      refine List.pairwise_cons.mpr ⟨?_, ih hxs ?_⟩
      · intro y hy
        rcases mem_PushTask hy with heq | hy'
        · rw [heq]
          rcases Nat.lt_or_ge t.Priority.val x.Priority.val with hlt | hge
          · exact Or.inl hlt
          · refine Or.inr ⟨Nat.le_antisymm hc hge, ?_⟩
            exact hid x (List.mem_cons_self x xs)
        · exact hx y hy'
      · intro u hu
        exact hid u (List.mem_cons_of_mem x hu)
    · simp only [SortedQ, PushTask, if_neg hc]
      refine List.pairwise_cons.mpr ⟨?_, hs⟩
      intro y hy
      rcases List.mem_cons.mp hy with rfl | hy'
      · exact Or.inl (Nat.lt_of_not_le hc)
      · have := hx y hy'
        rcases this with h1 | ⟨h1, _⟩
        · exact Or.inl (Nat.lt_trans h1 (Nat.lt_of_not_le hc))
        · exact Or.inl (h1 ▸ Nat.lt_of_not_le hc)

/-- A single operation on one worker queue, as seen by `PushTask`,
`TryPopTask` (front removal) and `TryStealTask` (back removal).  `push`
assigns the next fresh submission id. -/
inductive QOp where
  | push (p : TaskPriority)
  | pop
  | steal

/-- One queue operation applied to (queue, next fresh id). -/
def QStep (st : List Task × Nat) (op : QOp) : List Task × Nat :=
  match op with
  | .push p => (PushTask ⟨p, st.2⟩ st.1, st.2 + 1)
  | .pop => (st.1.tail, st.2)
  | .steal => (st.1.dropLast, st.2)

/-- Run a sequence of queue operations from the empty queue. -/
def RunQueueOps (ops : List QOp) : List Task × Nat := ops.foldl QStep ([], 0)

/-- The sorted invariant together with id freshness is preserved by every
sequence of queue operations. -/
theorem runQueueOps_inv :
    ∀ (ops : List QOp) (st : List Task × Nat), SortedQ st.1 →
      (∀ u ∈ st.1, u.id < st.2) →
      SortedQ (ops.foldl QStep st).1 ∧
        ∀ u ∈ (ops.foldl QStep st).1, u.id < (ops.foldl QStep st).2 := by
  intro ops
  induction ops with
  | nil =>
    intro st hs hid
    exact ⟨hs, hid⟩
  | cons op rest ih =>
    intro st hs hid
    refine ih (QStep st op) ?_ ?_
    · cases op with
      | push p => exact PushTask_sorted hs hid
      | pop =>
        cases h : st.1 with
        | nil => simpa [QStep, h] using (by simp [SortedQ] : SortedQ [])
        | cons x xs =>
          have := (List.pairwise_cons.mp (h ▸ hs)).2
          simpa [QStep, h] using this
      | steal =>
        exact List.Pairwise.sublist (List.dropLast_sublist st.1) hs
    · cases op with
      | push p =>
        intro u hu
        rcases mem_PushTask hu with rfl | hu'
        · exact Nat.lt_succ_self _
        · exact Nat.lt_succ_of_lt (hid u hu')
      | pop =>
        intro u hu
        exact hid u (List.mem_of_mem_tail hu)
      | steal =>
        intro u hu
        exact hid u (List.dropLast_sublist st.1 |>.mem hu)

/-- C2: after any sequence of `PushTask` / `TryPopTask` / `TryStealTask`
operations on a worker queue, the queue is sorted by descending priority with
ties in insertion order, and whenever it is non-empty its front element has
maximal priority and, among tasks of equal priority, the smallest
(= oldest) submission id. -/
theorem queue_sorted_invariant (ops : List QOp) :
    SortedQ (RunQueueOps ops).1 ∧
      ∀ t, (RunQueueOps ops).1.head? = some t →
        ∀ u ∈ (RunQueueOps ops).1,
          u.Priority.val ≤ t.Priority.val ∧
            (u.Priority.val = t.Priority.val → t.id ≤ u.id) := by
  have hinv := runQueueOps_inv ops ([], 0) (by simp [SortedQ]) (by simp)
  refine ⟨hinv.1, ?_⟩
  intro t ht u hu
  cases h : (RunQueueOps ops).1 with
  | nil => simp [h] at ht
  | cons x xs =>
    have hx : t = x := by
      have := ht
      rw [h] at this
      simpa using this.symm
    subst hx
    have hs : SortedQ (RunQueueOps ops).1 := hinv.1
    rw [h] at hs
    rcases (List.pairwise_cons.mp hs) with ⟨hfront, _⟩
    rw [h] at hu
    rcases List.mem_cons.mp hu with rfl | hu'
    · exact ⟨Nat.le_refl _, fun _ => Nat.le_refl _⟩
    · rcases hfront u hu' with h1 | ⟨h1, h2⟩
      · exact ⟨Nat.le_of_lt h1, fun he => absurd he (Nat.ne_of_lt h1)⟩
      · exact ⟨Nat.le_of_eq h1, fun _ => Nat.le_of_lt h2⟩

/-- Witness for C2 at the concrete operation sequence
[push Normal, push High]: the resulting queue is sorted and its front
(⟨High, 1⟩) dominates the queued task ⟨Normal, 0⟩. -/
theorem queue_sorted_invariant_witness :
    SortedQ (RunQueueOps [QOp.push .Normal, QOp.push .High]).1 ∧
      ((⟨.Normal, 0⟩ : Task).Priority.val ≤ (⟨.High, 1⟩ : Task).Priority.val ∧
        ((⟨.Normal, 0⟩ : Task).Priority.val = (⟨.High, 1⟩ : Task).Priority.val →
          (⟨.High, 1⟩ : Task).id ≤ (⟨.Normal, 0⟩ : Task).id)) := by
  have h := queue_sorted_invariant [QOp.push .Normal, QOp.push .High]
  exact ⟨h.1, h.2 ⟨.High, 1⟩ (by decide) ⟨.Normal, 0⟩ (by decide)⟩

/-- A list whose `getLast?` is `some t` contains `t`. -/
theorem getLast?_some_mem : ∀ {l : List Task} {t : Task},
    l.getLast? = some t → t ∈ l
  | [], t, h => by simp at h
  | [a], t, h => by
    have ha : a = t := by simpa using h
    simp [ha]
  | a :: b :: l, t, h => by
    rw [List.getLast?_cons_cons] at h
    exact List.mem_cons_of_mem a (getLast?_some_mem h)

/-- In a queue satisfying the sorted invariant, the back element has minimal
priority, and the largest (= newest) id among tasks of its priority. -/
theorem sorted_getLast_min : ∀ {l : List Task}, SortedQ l →
    ∀ {t : Task}, l.getLast? = some t → ∀ u ∈ l,
      t.Priority.val ≤ u.Priority.val ∧
        (u.Priority.val = t.Priority.val → u.id ≤ t.id)
  | [], _, t, h => by simp at h
  | [a], _, t, h => by
    have ha : a = t := by simpa using h
    subst ha
    intro u hu
    have : u = a := by simpa using hu
    subst this
    exact ⟨Nat.le_refl _, fun _ => Nat.le_refl _⟩
  | a :: b :: l, hs, t, h => by
    rw [List.getLast?_cons_cons] at h
    rcases List.pairwise_cons.mp hs with ⟨ha, hbl⟩
    intro u hu
    rcases List.mem_cons.mp hu with rfl | hu'
    · have htm : t ∈ b :: l := getLast?_some_mem h
      rcases ha t htm with h1 | ⟨h1, h2⟩
      · exact ⟨Nat.le_of_lt h1, fun he => absurd he.symm (Nat.ne_of_lt h1)⟩
      · exact ⟨Nat.le_of_eq h1, fun _ => Nat.le_of_lt h2⟩
    · exact sorted_getLast_min hbl h u hu'

/-- C6: whenever `TryStealTask` succeeds on some probe sequence, the probed
queue's lock attempt succeeded, the stolen task is that queue's back element
(which is removed), and — when the queue satisfies the sorted invariant — it
is the lowest-priority, newest-among-equals task of that queue. -/
theorem steal_takes_back_lowest :
    ∀ (probes : List Nat) (queues : List (List Task)) (lockable : Nat → Bool)
      (t : Task) (i : Nat) (qs' : List (List Task)),
      TryStealTask queues lockable probes = some (t, i, qs') →
      i ∈ probes ∧ lockable i = true ∧
        (queues.getD i []).getLast? = some t ∧
        qs' = queues.set i (queues.getD i []).dropLast ∧
        (SortedQ (queues.getD i []) →
          ∀ u ∈ queues.getD i [],
            t.Priority.val ≤ u.Priority.val ∧
              (u.Priority.val = t.Priority.val → u.id ≤ t.id))
  | [], _, _, _, _, _, h => by simp [TryStealTask] at h
  | j :: rest, queues, lockable, t, i, qs', h => by
    by_cases hl : lockable j = true
    · rw [TryStealTask, if_pos hl] at h
      cases hgl : (queues.getD j []).getLast? with
      | none =>
        rw [hgl] at h
        have ih := steal_takes_back_lowest rest queues lockable t i qs' h
        exact ⟨List.mem_cons_of_mem j ih.1, ih.2⟩
      | some t' =>
        rw [hgl] at h
        simp only [Option.some.injEq, Prod.mk.injEq] at h
        rcases h with ⟨rfl, rfl, rfl⟩
        refine ⟨List.mem_cons_self j rest, hl, hgl, rfl, ?_⟩
        intro hsq u hu
        exact sorted_getLast_min hsq hgl u hu
    · rw [TryStealTask, if_neg hl] at h
      have ih := steal_takes_back_lowest rest queues lockable t i qs' h
      exact ⟨List.mem_cons_of_mem j ih.1, ih.2⟩

/-- Witness for C6: stealing from the single sorted queue
[⟨High, 0⟩, ⟨Low, 1⟩] with an uncontended lock and probe sequence [0] returns
the back task ⟨Low, 1⟩, which has lower priority than the queued ⟨High, 0⟩. -/
theorem steal_takes_back_lowest_witness :
    (([[(⟨.High, 0⟩ : Task), ⟨.Low, 1⟩]].getD 0 []).getLast? =
        some (⟨.Low, 1⟩ : Task)) ∧
      (⟨.Low, 1⟩ : Task).Priority.val ≤ (⟨.High, 0⟩ : Task).Priority.val := by
  have h := steal_takes_back_lowest [0] [[(⟨.High, 0⟩ : Task), ⟨.Low, 1⟩]]
    (fun _ => true) ⟨.Low, 1⟩ 0 [[(⟨.High, 0⟩ : Task)]] (by decide)
  exact ⟨h.2.2.1, (h.2.2.2.2 (by decide) ⟨.High, 0⟩ (by decide)).1⟩

/-- Model of `TaskHandle::Increment` (TaskSystem.h lines 53-55):
`fetch_add(1)` on the shared counter. -/
def Increment (c : Int) : Int := c + 1

/-- Model of `TaskHandle::Decrement` (TaskSystem.h lines 57-59):
`fetch_sub(1)` on the shared counter. -/
def Decrement (c : Int) : Int := c - 1

/-- An event on one handle's counter, as performed by the scheduler: a task
(identified by `tid`) is submitted (`ScheduleInternal` calls `Increment`) or
finishes (`WorkerThreadFunction` calls `Decrement`). -/
inductive HEvent where
  | submit (tid : Nat)
  | complete (tid : Nat)
deriving DecidableEq

/-- Counter value after running a history of scheduler events. -/
def runCounter : Int → List HEvent → Int
  | c, [] => c
  | c, .submit _ :: tr => runCounter (Increment c) tr
  | c, .complete _ :: tr => runCounter (Decrement c) tr

/-- Task ids submitted during a history. -/
def submits : List HEvent → List Nat
  | [] => []
  | .submit t :: tr => t :: submits tr
  | .complete _ :: tr => submits tr

/-- Task ids completed during a history. -/
def completes : List HEvent → List Nat
  | [] => []
  | .submit _ :: tr => completes tr
  | .complete t :: tr => t :: completes tr

/-- Scheduler discipline on one handle, parameterised by the ids already
submitted (`s`) and completed (`c`): each task is submitted at most once,
and completes at most once and only after being submitted. -/
def WFHist : List Nat → List Nat → List HEvent → Prop
  | _, _, [] => True
  | s, c, .submit t :: tr => t ∉ s ∧ WFHist (t :: s) c tr
  | s, c, .complete t :: tr => t ∈ s ∧ t ∉ c ∧ WFHist s (t :: c) tr

def decWFHist : ∀ (s c : List Nat) (tr : List HEvent), Decidable (WFHist s c tr)
  | _, _, [] => .isTrue trivial
  | s, c, .submit t :: tr =>
    have := decWFHist (t :: s) c tr
    by unfold WFHist; infer_instance
  | s, c, .complete t :: tr =>
    have := decWFHist s (t :: c) tr
    by unfold WFHist; infer_instance

instance (s c : List Nat) (tr : List HEvent) : Decidable (WFHist s c tr) :=
  decWFHist s c tr

/-- The discipline restricts to every initial segment of a history. -/
theorem WFHist_append_left :
    ∀ (l1 l2 : List HEvent) (s c : List Nat),
      WFHist s c (l1 ++ l2) → WFHist s c l1
  | [], _, _, _, _ => trivial
  | .submit _ :: l1, l2, _, _, h => ⟨h.1, WFHist_append_left l1 l2 _ _ h.2⟩
  | .complete _ :: l1, l2, _, _, h =>
    ⟨h.1, h.2.1, WFHist_append_left l1 l2 _ _ h.2.2⟩

/-- Counter bookkeeping: the counter is the submit count minus the complete
count. -/
theorem runCounter_eq :
    ∀ (tr : List HEvent) (k : Int),
      runCounter k tr = k + (submits tr).length - (completes tr).length
  | [], k => by simp [runCounter, submits, completes]
  | .submit t :: tr, k => by
    have := runCounter_eq tr (Increment k)
    simp only [runCounter, submits, completes, List.length_cons] at *
    rw [this]
    unfold Increment
    push_cast
    ring
  | .complete t :: tr, k => by
    have := runCounter_eq tr (Decrement k)
    simp only [runCounter, submits, completes, List.length_cons] at *
    rw [this]
    unfold Decrement
    push_cast
    ring

/-- A duplicate-free list contained in another list is no longer than it. -/
theorem nodup_subset_length {l1 l2 : List Nat} (h1 : l1.Nodup)
    (hsub : ∀ x ∈ l1, x ∈ l2) : l1.length ≤ l2.length := by
  have hc : l1.toFinset.card = l1.length := List.toFinset_card_of_nodup h1
  have hsub' : l1.toFinset ⊆ l2.toFinset := by
    intro x hx
    exact List.mem_toFinset.mpr (hsub x (List.mem_toFinset.mp hx))
  calc l1.length = l1.toFinset.card := hc.symm
    _ ≤ l2.toFinset.card := Finset.card_le_card hsub'
    _ ≤ l2.length := List.toFinset_card_le l2

/-- Two duplicate-free lists, one inside the other and at least as long,
contain the same elements. -/
theorem nodup_subset_length_eq {l1 l2 : List Nat} (h1 : l1.Nodup)
    (h2 : l2.Nodup) (hsub : ∀ x ∈ l1, x ∈ l2) (hlen : l2.length ≤ l1.length) :
    ∀ x ∈ l2, x ∈ l1 := by
  have hsub' : l1.toFinset ⊆ l2.toFinset := by
    intro x hx
    exact List.mem_toFinset.mpr (hsub x (List.mem_toFinset.mp hx))
  have hcard : l2.toFinset.card ≤ l1.toFinset.card := by
    rw [List.toFinset_card_of_nodup h1, List.toFinset_card_of_nodup h2]
    exact hlen
  have := Finset.eq_of_subset_of_card_le hsub' hcard
  intro x hx
  exact List.mem_toFinset.mp (this ▸ List.mem_toFinset.mpr hx)

/-- Main bookkeeping invariant of a well-formed history: completions (with
the already-completed ids) stay duplicate-free and inside the submissions
(with the already-submitted ids), which are also duplicate-free. -/
theorem wfHist_books :
    ∀ (tr : List HEvent) (s c : List Nat), WFHist s c tr → s.Nodup →
      c.Nodup → (∀ x ∈ c, x ∈ s) →
      (completes tr ++ c).Nodup ∧
        (∀ x ∈ completes tr ++ c, x ∈ submits tr ++ s) ∧
        (submits tr ++ s).Nodup
  | [], s, c, _, hs, hc, hcs => by
    refine ⟨by simpa [completes] using hc, ?_, by simpa [submits] using hs⟩
    intro x hx
    simp only [completes, List.nil_append] at hx
    simp only [submits, List.nil_append]
    exact hcs x hx
  | .submit t :: tr, s, c, h, hs, hc, hcs => by
    rcases h with ⟨hts, h'⟩
    have ih := wfHist_books tr (t :: s) c h'
      (List.nodup_cons.mpr ⟨hts, hs⟩) hc
      (fun x hx => List.mem_cons_of_mem t (hcs x hx))
    simp only [submits, completes] at *
    refine ⟨ih.1, ?_, ?_⟩
    · intro x hx
      have := ih.2.1 x hx
      simp only [List.mem_append, List.mem_cons] at this ⊢
      tauto
    · have hperm : (submits tr ++ t :: s).Perm (t :: (submits tr ++ s)) :=
        List.perm_middle
      exact List.Perm.nodup hperm ih.2.2
  | .complete t :: tr, s, c, h, hs, hc, hcs => by
    rcases h with ⟨hts, htc, h'⟩
    have ih := wfHist_books tr s (t :: c) h' hs
      (List.nodup_cons.mpr ⟨htc, hc⟩)
      (fun x hx => by
        rcases List.mem_cons.mp hx with rfl | hx'
        · exact hts
        · exact hcs x hx')
    simp only [submits, completes] at *
    have hperm : (completes tr ++ t :: c).Perm (t :: (completes tr ++ c)) :=
      List.perm_middle
    refine ⟨?_, ?_, ih.2.2⟩
    · have := List.Perm.nodup hperm ih.1
      simpa using this
    · intro x hx
      have hx' : x ∈ completes tr ++ t :: c := by
        have := hperm.mem_iff (a := x)
        simp only [List.cons_append, List.mem_cons] at hx ⊢
        rcases hx with rfl | hx2
        · exact this.mpr (by simp)
        · exact this.mpr (by simp [List.mem_append.mp hx2])
      exact ih.2.1 x hx'

/-- C4: under the scheduler's discipline (one `Increment` per task at
submission, one `Decrement` at completion, each task submitted and completed
at most once and completed only after submission), the handle counter is
non-negative in every reachable state — i.e. after every initial segment of
the history — and it is zero exactly when every submitted task of that
segment has completed. -/
theorem handle_counter_invariant (tr pre suf : List HEvent)
    (hsplit : tr = pre ++ suf) (hwf : WFHist [] [] tr) :
    0 ≤ runCounter 0 pre ∧
      (runCounter 0 pre = 0 ↔ ∀ t ∈ submits pre, t ∈ completes pre) := by
  have hpre : WFHist [] [] pre := WFHist_append_left pre suf [] [] (hsplit ▸ hwf)
  have hb := wfHist_books pre [] [] hpre List.nodup_nil List.nodup_nil
    (fun x hx => absurd hx (List.not_mem_nil x))
  simp only [List.append_nil] at hb
  rcases hb with ⟨hcn, hcsub, hsn⟩
  have hlen : (completes pre).length ≤ (submits pre).length :=
    nodup_subset_length hcn hcsub
  have hrc := runCounter_eq pre 0
  constructor
  · rw [hrc]
    omega
  · constructor
    · intro h0
      have hlen2 : (submits pre).length ≤ (completes pre).length := by
        rw [hrc] at h0
        omega
      exact nodup_subset_length_eq hcn hsn hcsub hlen2
    · intro hall
      have hlen2 : (submits pre).length ≤ (completes pre).length :=
        nodup_subset_length hsn hall
      rw [hrc]
      omega

/-- Witness for C4 at the history [submit 0, complete 0] with reachable
state cut after the submit: the counter is 1 ≥ 0 there and, not all
submitted tasks being complete, it is nonzero. -/
theorem handle_counter_invariant_witness :
    0 ≤ runCounter 0 [HEvent.submit 0] ∧
      (runCounter 0 [HEvent.submit 0] = 0 ↔
        ∀ t ∈ submits [HEvent.submit 0], t ∈ completes [HEvent.submit 0]) :=
  handle_counter_invariant [HEvent.submit 0, HEvent.complete 0]
    [HEvent.submit 0] [HEvent.complete 0] rfl (by decide)

/-- One more than the largest `uint32_t` value; every `uint32_t` arithmetic
step of `ParallelFor::Execute` is reduced modulo this. -/
def U32 : Nat := 4294967296

/-- Model of the effective batch size computed at TaskSystem.cpp lines
230-233: if the caller passed 0, `std::max(1u, count / (workerCount * 4))`
(with `workerCount * 4` a wrapping `uint32_t` product), else the caller's
value. -/
def EffectiveBatchSize (count workerCount batchSize : Nat) : Nat :=
  if batchSize = 0 then max 1 (count / (workerCount * 4 % U32)) else batchSize

/-- Model of `numBatches = (count + batchSize - 1) / batchSize`
(TaskSystem.cpp line 235) in `uint32_t` arithmetic: the numerator wraps
modulo 2^32 (adding `U32 - 1` expresses the wrapping `- 1` uniformly). -/
def NumBatches (count batchSize : Nat) : Nat :=
  ((count + batchSize + (U32 - 1)) % U32) / batchSize

/-- Model of the batch-submission loop (TaskSystem.cpp lines 239-250): batch
`batch` covers `[start, end)` with `start = batch * batchSize` and
`end = min(start + batchSize, count)` in `uint32_t` arithmetic, and its task
invokes `fn` on that sub-range in ascending order. -/
def ExecuteBatches (count batchSize : Nat) : List (List Nat) :=
  (List.range (NumBatches count batchSize)).map (fun batch =>
    let start := batch * batchSize % U32
    List.range' start (min ((start + batchSize) % U32) count - start))

/-- Model of `ParallelFor::Execute` (TaskSystem.cpp lines 216-256): the full
sequence of indices `fn` is invoked on — empty when `count == 0`, the serial
ascending range when no workers exist, otherwise the batch sub-ranges in
submission order. -/
def ExecuteIndices (count workerCount batchSize : Nat) : List Nat :=
  if count = 0 then []
  else if workerCount = 0 then List.range count
  else (ExecuteBatches count (EffectiveBatchSize count workerCount batchSize)).flatten

/-- Concatenating the batch sub-ranges for the first `k` batches yields the
initial segment `[0, min (k * b) count)`. -/
theorem flatten_clean_batches (b count : Nat) :
    ∀ k : Nat,
      ((List.range k).map (fun batch =>
        List.range' (batch * b) (min (batch * b + b) count - batch * b))).flatten
        = List.range (min (k * b) count)
  | 0 => by simp
  | k + 1 => by
    rw [List.range_succ, List.map_append, List.flatten_append,
      flatten_clean_batches b count k]
    simp only [List.map_cons, List.map_nil, List.flatten_cons,
      List.flatten_nil, List.append_nil]
    rcases Nat.lt_or_ge (k * b) count with hlt | hge
    · have h1 : min (k * b) count = k * b := Nat.min_eq_left (Nat.le_of_lt hlt)
      rw [h1, List.range_eq_range', List.range_eq_range']
      have h2 : (min (k * b + b) count - k * b) + k * b = min ((k + 1) * b) count := by
        rw [Nat.succ_mul k b]
        omega
      rw [← h2]
      have happ := List.range'_append_1 0 (k * b) (min (k * b + b) count - k * b)
      rw [Nat.zero_add] at happ
      exact happ
    · have h1 : min (k * b) count = count := Nat.min_eq_right hge
      have h2 : min (k * b + b) count = count := by
        have : count ≤ k * b + b := Nat.le_trans hge (Nat.le_add_right _ _)
        exact Nat.min_eq_right this
      have h3 : min ((k + 1) * b) count = count := by
        have h4 : (k + 1) * b = k * b + b := Nat.succ_mul k b
        rw [h4]
        exact h2
      rw [h1, h2, h3]
      have h5 : count - k * b = 0 := Nat.sub_eq_zero_of_le hge
      rw [h5]
      simp

/-- C1 (amended for 32-bit overflow): `ParallelFor::Execute` invokes `fn`
exactly once on every index of `[0, count)` and on nothing else — empty for
`count = 0`, the serial ascending range when there are no workers, and
otherwise batch sub-ranges that, concatenated in submission order and
ascending within each batch, are exactly `[0, count)` — provided the
`uint32_t` products and the numerator `count + batchSize - 1` do not wrap
(`workerCount * 4 < 2^32` and `count + effective batch size ≤ 2^32`). -/
theorem parallelFor_coverage (count workerCount batchSize : Nat)
    (hw4 : workerCount * 4 < U32)
    (hov : count + EffectiveBatchSize count workerCount batchSize ≤ U32) :
    ExecuteIndices count workerCount batchSize = List.range count := by
  unfold ExecuteIndices
  by_cases h0 : count = 0
  · rw [if_pos h0, h0]
    simp
  · rw [if_neg h0]
    by_cases hw : workerCount = 0
    · rw [if_pos hw]
    · rw [if_neg hw]
      have hcount : 0 < count := Nat.pos_of_ne_zero h0
      set b := EffectiveBatchSize count workerCount batchSize with hbdef
      have hb : 0 < b := by
        rw [hbdef]
        unfold EffectiveBatchSize
        by_cases hbs : batchSize = 0
        · rw [if_pos hbs]
          exact Nat.le_max_left 1 _
        · rw [if_neg hbs]
          exact Nat.pos_of_ne_zero hbs
      -- the numerator does not wrap
      have hnowrap : count + b + (U32 - 1) = (count + b - 1) + U32 := by omega
      have hlt : count + b - 1 < U32 := by omega
      have hnb : NumBatches count b = (count + b - 1) / b := by
        unfold NumBatches
        rw [hnowrap, Nat.add_mod_right, Nat.mod_eq_of_lt hlt]
      set nb := (count + b - 1) / b with hnbdef
      -- ceiling facts
      have hdm : b * nb + (count + b - 1) % b = count + b - 1 :=
        Nat.div_add_mod (count + b - 1) b
      have hmlt : (count + b - 1) % b < b := Nat.mod_lt _ hb
      have hub : b * nb ≤ count + b - 1 := by omega
      have hlb : count ≤ b * nb := by omega
      -- each batch's uint32 arithmetic stays in range
      have hclean : ExecuteBatches count b =
          (List.range nb).map (fun batch =>
            List.range' (batch * b) (min (batch * b + b) count - batch * b)) := by
        unfold ExecuteBatches
        rw [hnb]
        apply List.map_congr_left
        intro batch hbatch
        have hblt : batch < nb := List.mem_range.mp hbatch
        have hsucc : batch + 1 ≤ nb := hblt
        have hmul : (batch + 1) * b ≤ nb * b := Nat.mul_le_mul_right b hsucc
        have hsm : (batch + 1) * b = batch * b + b := Nat.succ_mul batch b
        have hend : batch * b + b ≤ count + b - 1 := by
          rw [← hsm]
          calc (batch + 1) * b ≤ nb * b := hmul
            _ = b * nb := Nat.mul_comm nb b
            _ ≤ count + b - 1 := hub
        have hstart : batch * b < U32 := by omega
        have hendlt : batch * b + b < U32 := by omega
        show List.range' (batch * b % U32)
            (min ((batch * b % U32 + b) % U32) count - batch * b % U32) =
          List.range' (batch * b) (min (batch * b + b) count - batch * b)
        rw [Nat.mod_eq_of_lt hstart]
        rw [Nat.mod_eq_of_lt hendlt]
      rw [hclean, flatten_clean_batches b count nb]
      have : min (nb * b) count = count :=
        Nat.min_eq_right (by rw [Nat.mul_comm]; exact hlb)
      rw [this]

/-- Witness for C1 at count = 10, two workers, automatic batch size (the
effective batch size is 1): the invoked indices are exactly 0..9. -/
theorem parallelFor_coverage_witness :
    ExecuteIndices 10 2 0 = List.range 10 :=
  parallelFor_coverage 10 2 0 (by decide) (by decide)

/-- Counterexample to C1 as stated for every count and batch size: with one
worker, `Execute(2, fn, 4294967295)` computes
`numBatches = (2 + 4294967295 - 1) / 4294967295 = 0` in wrapping `uint32_t`
arithmetic, submits no batch, and never invokes `fn`, although
`[0, 2)` is non-empty. -/
theorem parallelFor_coverage_counterexample :
    ExecuteIndices 2 1 4294967295 = [] ∧ (0 : Nat) ∈ List.range 2 := by
  constructor
  · rfl
  · decide

/-- The batch-size formula as the specification states it:
`max(1, count / (workerCount * 4))` in exact arithmetic. -/
def AutoBatchSize (count workerCount : Nat) : Nat :=
  max 1 (count / (workerCount * 4))

/-- C5 (amended for 32-bit overflow): with a zero caller batch size and
positive count and worker count, `ParallelFor::Execute` uses batch size
`max(1, count / (workerCount * 4))` and submits
`(count + batchSize - 1) / batchSize` batch tasks, which is the ceiling of
`count / batchSize` (it is the least multiple bound: `numBatches * batchSize`
first reaches `count`) — provided `workerCount * 4 < 2^32` and
`count + batchSize ≤ 2^32` so that no `uint32_t` wrap occurs. -/
theorem batch_size_heuristic (count workerCount : Nat)
    (hc : 0 < count) (_hw : 0 < workerCount)
    (hw4 : workerCount * 4 < U32)
    (hov : count + AutoBatchSize count workerCount ≤ U32) :
    EffectiveBatchSize count workerCount 0 = AutoBatchSize count workerCount ∧
      (ExecuteBatches count (AutoBatchSize count workerCount)).length =
        (count + AutoBatchSize count workerCount - 1) /
          AutoBatchSize count workerCount ∧
      count ≤ (count + AutoBatchSize count workerCount - 1) /
          AutoBatchSize count workerCount * AutoBatchSize count workerCount ∧
      (count + AutoBatchSize count workerCount - 1) /
          AutoBatchSize count workerCount * AutoBatchSize count workerCount <
        count + AutoBatchSize count workerCount := by
  set b := AutoBatchSize count workerCount with hbd
  have hb : 0 < b := by
    rw [hbd]
    exact Nat.le_max_left 1 _
  have heff : EffectiveBatchSize count workerCount 0 = b := by
    unfold EffectiveBatchSize
    rw [if_pos rfl, Nat.mod_eq_of_lt hw4, hbd]
    rfl
  have hnowrap : count + b + (U32 - 1) = (count + b - 1) + U32 := by omega
  have hlt : count + b - 1 < U32 := by omega
  have hnb : NumBatches count b = (count + b - 1) / b := by
    unfold NumBatches
    rw [hnowrap, Nat.add_mod_right, Nat.mod_eq_of_lt hlt]
  have hdm : b * ((count + b - 1) / b) + (count + b - 1) % b = count + b - 1 :=
    Nat.div_add_mod (count + b - 1) b
  have hmlt : (count + b - 1) % b < b := Nat.mod_lt _ hb
  have hmc : (count + b - 1) / b * b = b * ((count + b - 1) / b) :=
    Nat.mul_comm _ _
  refine ⟨heff, ?_, ?_, ?_⟩
  · unfold ExecuteBatches
    rw [List.length_map, List.length_range, hnb]
  · rw [hmc]
    omega
  · rw [hmc]
    omega

/-- Witness for C5 at count = 1000 with 4 workers: the effective batch size
is 62 and 17 batch tasks are submitted. -/
theorem batch_size_heuristic_witness :
    EffectiveBatchSize 1000 4 0 = 62 ∧
      (ExecuteBatches 1000 (AutoBatchSize 1000 4)).length = 17 := by
  have h := batch_size_heuristic 1000 4 (by decide) (by decide) (by decide)
    (by decide)
  constructor
  · rw [h.1]
    decide
  · rw [h.2.1]
    decide

/-- Counterexample to C5 as stated for every count: at
`count = 4294967295` with 4 workers the effective batch size is 268435455,
so `ceil(count / batchSize) = 17`, but the `uint32_t` numerator
`count + batchSize - 1` wraps and the code submits 0 batch tasks. -/
theorem batch_size_heuristic_counterexample :
    (ExecuteBatches 4294967295 (EffectiveBatchSize 4294967295 4 0)).length = 0 ∧
      (4294967295 + EffectiveBatchSize 4294967295 4 0 - 1) /
          EffectiveBatchSize 4294967295 4 0 = 17 := by
  constructor
  · rfl
  · rfl

/-- Model of the worker-count resolution in `InitializeInternal`
(TaskSystem.cpp lines 68-74): a zero request means auto — the hardware
concurrency hint, decremented only when above one — and the result is
clamped to at least 1. -/
def ResolveWorkerCount (numThreads hint : Nat) : Nat :=
  max 1 (if numThreads = 0 then (if hint > 1 then hint - 1 else hint)
         else numThreads)

/-- Model of the singleton lifecycle of `TaskSystem::Initialize`
(TaskSystem.cpp lines 18-23): a new instance (carrying its spawned worker
count) is created only when none exists; re-initialization is a no-op. -/
def Initialize (inst : Option Nat) (numThreads hint : Nat) : Option Nat :=
  match inst with
  | some w => some w
  | none => some (ResolveWorkerCount numThreads hint)

/-- Model of `TaskSystem::GetWorkerCount` (TaskSystem.cpp lines 60-62):
the worker count of the live instance, or 0 when not initialized. -/
def GetWorkerCount (inst : Option Nat) : Nat :=
  match inst with
  | none => 0
  | some w => w

/-- C7: `Initialize(0)` spawns `max 1 (hint - 1)` workers (truncated
subtraction — the code's `if > 1` guard makes hints 0 and 1 both yield one
worker), `GetWorkerCount` then reports exactly that number, and it reports 0
whenever the scheduler is not initialized. -/
theorem worker_count_auto (hint : Nat) :
    GetWorkerCount (Initialize none 0 hint) = max 1 (hint - 1) ∧
      GetWorkerCount none = 0 := by
  constructor
  · show ResolveWorkerCount 0 hint = max 1 (hint - 1)
    unfold ResolveWorkerCount
    rw [if_pos rfl]
    rcases Nat.lt_or_ge 1 hint with h | h
    · rw [if_pos h]
    · rw [if_neg (Nat.not_lt.mpr h)]
      omega
  · rfl

/-- Witness for C7 at hardware hint 8: seven workers are spawned and
reported; an uninitialized scheduler reports 0. -/
theorem worker_count_auto_witness :
    GetWorkerCount (Initialize none 0 8) = 7 ∧ GetWorkerCount none = 0 := by
  have h := worker_count_auto 8
  exact ⟨by rw [h.1]; decide, h.2⟩

/-- Model of the `Wait` polling condition (TaskSystem.h lines 43-47): the
loop spins while `m_Counter->load() > 0`; with the counter value fixed, the
loop exits iff this is false. -/
def WaitLoopCond (c : Int) : Bool := decide (c > 0)

/-- Model of `TaskHandle::IsComplete` (TaskSystem.h lines 49-51): true iff
the (live) counter's value equals 0. -/
def IsComplete (c : Int) : Bool := decide (c = 0)

/-- C10: for a live counter, the `Wait` loop exits exactly when the counter
is at most 0, `IsComplete` holds exactly when it equals 0, and hence a
negative counter makes `Wait` return immediately while `IsComplete` reports
false. -/
theorem wait_iscomplete_semantics (c : Int) :
    (WaitLoopCond c = false ↔ c ≤ 0) ∧
      (IsComplete c = true ↔ c = 0) ∧
      (c < 0 → WaitLoopCond c = false ∧ IsComplete c = false) := by
  refine ⟨?_, ?_, ?_⟩
  · simp [WaitLoopCond]
  · simp [IsComplete]
  · intro hneg
    constructor
    · simp [WaitLoopCond]
      omega
    · simp [IsComplete]
      omega

/-- Witness for C10 at counter value -1: `Wait` returns immediately, yet
`IsComplete` is false. -/
theorem wait_iscomplete_semantics_witness :
    WaitLoopCond (-1) = false ∧ IsComplete (-1) = false :=
  (wait_iscomplete_semantics (-1)).2.2 (by decide)

/-- Model of `TaskHandle` (TaskSystem.h lines 39-63): the shared counter's
value. -/
structure TaskHandle where
  counter : Int
deriving DecidableEq

/-- Model of the `TaskHandle()` default constructor (TaskSystem.h line 41):
a fresh counter holding 0. -/
def NewTaskHandle : TaskHandle := ⟨0⟩

/-- Model of the scheduler instance state: the running flag, the per-worker
queues, and a fresh-id counter for submitted tasks.  `executed` is the ghost
history of tasks whose callable has been invoked, in invocation order. -/
structure TaskSystemState where
  running : Bool
  queues : List (List Task)
  executed : List Task
  nextId : Nat
deriving DecidableEq

/-- Model of `ScheduleInternal` (TaskSystem.cpp lines 117-135) once the
random target queue is fixed: the fresh handle's counter is incremented from
0 to 1 and the new task is inserted into the target queue by `PushTask`. -/
def ScheduleInternal (s : TaskSystemState) (p : TaskPriority) (target : Nat) :
    TaskHandle × TaskSystemState :=
  (⟨Increment 0⟩,
    { s with
      queues := s.queues.set target
        (PushTask ⟨p, s.nextId⟩ (s.queues.getD target [])),
      nextId := s.nextId + 1 })

/-- Model of `TaskSystem::Schedule` (TaskSystem.cpp lines 33-38): with no
live instance the callable is discarded and a default-constructed
`TaskHandle` is returned; otherwise defer to `ScheduleInternal`. -/
def Schedule (inst : Option TaskSystemState) (p : TaskPriority)
    (target : Nat) : TaskHandle × Option TaskSystemState :=
  match inst with
  | none => (NewTaskHandle, none)
  | some s =>
    let r := ScheduleInternal s p target
    (r.1, some r.2)

/-- Model of `TaskSystem::ScheduleBatch` (TaskSystem.cpp lines 40-50): one
`Schedule` call per callable (the callables are identified by the entries of
`functions`; `targets` supplies each call's random queue choice), collecting
the handles in order. -/
def ScheduleBatch (inst : Option TaskSystemState) (functions : List Nat)
    (p : TaskPriority) (targets : List Nat) :
    List TaskHandle × Option TaskSystemState :=
  match functions with
  | [] => ([], inst)
  | _ :: fs =>
    let r := Schedule inst p (targets.headD 0)
    let rest := ScheduleBatch r.2 fs p targets.tail
    (r.1 :: rest.1, rest.2)

/-- C9: scheduling on an uninitialized scheduler returns the
default-constructed handle, whose counter is 0, so `IsComplete` is
immediately true and the `Wait` loop exits at once; the state stays
uninitialized (no queue ever receives the task, so the callable is never
invoked), and `ScheduleBatch` returns one such handle per callable. -/
theorem schedule_uninitialized (p : TaskPriority) (target : Nat) :
    Schedule none p target = (NewTaskHandle, none) ∧
      NewTaskHandle.counter = 0 ∧
      IsComplete NewTaskHandle.counter = true ∧
      WaitLoopCond NewTaskHandle.counter = false ∧
      ∀ (functions : List Nat) (targets : List Nat),
        ScheduleBatch none functions p targets =
          (List.replicate functions.length NewTaskHandle, none) := by
  refine ⟨rfl, rfl, rfl, rfl, ?_⟩
  intro functions
  induction functions with
  | nil => intro targets; rfl
  | cons f fs ih =>
    intro targets
    simp only [ScheduleBatch, Schedule, List.length_cons, List.replicate,
      ih targets.tail]

/-- Witness for C9: a concrete schedule and a two-callable batch on the
uninitialized scheduler yield default handles and leave it uninitialized. -/
theorem schedule_uninitialized_witness :
    Schedule none TaskPriority.Normal 0 = (NewTaskHandle, none) ∧
      ScheduleBatch none [1, 2] TaskPriority.Normal [] =
        (List.replicate 2 NewTaskHandle, none) := by
  have h := schedule_uninitialized TaskPriority.Normal 0
  exact ⟨h.1, h.2.2.2.2 [1, 2] []⟩

/-- Model of `ShutdownInternal` (TaskSystem.cpp lines 96-115): the running
flag is cleared, every worker is joined, and the queues are released with
their remaining tasks; nothing further is executed, so the ghost history is
unchanged. -/
def ShutdownInternal (s : TaskSystemState) : TaskSystemState :=
  { running := false, queues := [], executed := s.executed,
    nextId := s.nextId }

/-- Model of the state built by `InitializeInternal` (TaskSystem.cpp lines
68-94): running flag true and `n` empty queues. -/
def InitState (n : Nat) : TaskSystemState :=
  { running := true, queues := List.replicate n [], executed := [],
    nextId := 0 }

/-- Interleaved system transitions of the scheduler.  `schedule` inserts a
fresh task into any queue (`ScheduleInternal` with a random target);
`popRun` is one worker-loop iteration executing the front of a queue
(`TryPopTask`, guarded by the running flag); `stealRun` executes the back of
a queue (`TryStealTask`, same guard); `shutdown` is `ShutdownInternal`. -/
inductive SysStep : TaskSystemState → TaskSystemState → Prop where
  | schedule (s : TaskSystemState) (p : TaskPriority)
      (pre post : List (List Task)) (q : List Task)
      (hq : s.queues = pre ++ q :: post) :
      SysStep s { running := s.running,
                  queues := pre ++ PushTask ⟨p, s.nextId⟩ q :: post,
                  executed := s.executed, nextId := s.nextId + 1 }
  | popRun (s : TaskSystemState) (pre post : List (List Task)) (t : Task)
      (rest : List Task) (hr : s.running = true)
      (hq : s.queues = pre ++ (t :: rest) :: post) :
      SysStep s { running := s.running, queues := pre ++ rest :: post,
                  executed := s.executed ++ [t], nextId := s.nextId }
  | stealRun (s : TaskSystemState) (pre post : List (List Task))
      (q : List Task) (t : Task) (hr : s.running = true)
      (hq : s.queues = pre ++ (q ++ [t]) :: post) :
      SysStep s { running := s.running, queues := pre ++ q :: post,
                  executed := s.executed ++ [t], nextId := s.nextId }
  | shutdown (s : TaskSystemState) : SysStep s (ShutdownInternal s)

/-- The ids of every task currently queued or already executed. -/
def AllIds (s : TaskSystemState) : List Nat :=
  (s.queues.flatten ++ s.executed).map Task.id

/-- System invariant: task ids are pairwise distinct across all queues and
the execution history, and all are below the fresh-id counter. -/
def SysInv (s : TaskSystemState) : Prop :=
  (AllIds s).Nodup ∧ ∀ x ∈ AllIds s, x < s.nextId

/-- `PushTask` inserts exactly the new task, up to order. -/
theorem PushTask_perm (t : Task) : ∀ q : List Task, (PushTask t q).Perm (t :: q)
  | [] => List.Perm.refl [t]
  | x :: xs => by
    unfold PushTask
    split
    · exact List.Perm.trans (List.Perm.cons x (PushTask_perm t xs))
        (List.Perm.swap t x xs)
    · exact List.Perm.refl _

/-- Pulling a distinguished middle element to the front, up to order. -/
theorem perm_pull_middle (l1 l2 l3 : List Task) (t : Task) :
    (l1 ++ (t :: l2) ++ l3).Perm (t :: (l1 ++ l2 ++ l3)) := by
  have h1 : l1 ++ (t :: l2) ++ l3 = l1 ++ t :: (l2 ++ l3) := by
    simp [List.append_assoc]
  have h2 : t :: (l1 ++ l2 ++ l3) = t :: (l1 ++ (l2 ++ l3)) := by
    simp [List.append_assoc]
  rw [h1, h2]
  exact List.perm_middle

/-- The tasks currently queued or already executed. -/
def AllTasks (s : TaskSystemState) : List Task :=
  s.queues.flatten ++ s.executed

/-- Task pool after a `schedule` step: the fresh task joins the pool. -/
theorem allTasks_schedule (s : TaskSystemState) (p : TaskPriority)
    (pre post : List (List Task)) (q : List Task)
    (hq : s.queues = pre ++ q :: post) :
    (AllTasks { running := s.running,
                queues := pre ++ PushTask ⟨p, s.nextId⟩ q :: post,
                executed := s.executed, nextId := s.nextId + 1 }).Perm
      ((⟨p, s.nextId⟩ : Task) :: AllTasks s) := by
  unfold AllTasks
  rw [hq]
  simp only [List.flatten_append, List.flatten_cons]
  have h1 : (pre.flatten ++ (PushTask ⟨p, s.nextId⟩ q ++ post.flatten) ++
      s.executed).Perm
      (pre.flatten ++ (((⟨p, s.nextId⟩ : Task) :: q) ++ post.flatten) ++
        s.executed) :=
    List.Perm.append_right s.executed
      (List.Perm.append_left pre.flatten
        (List.Perm.append_right post.flatten (PushTask_perm _ q)))
  refine List.Perm.trans h1 ?_
  have h2 : pre.flatten ++ (((⟨p, s.nextId⟩ : Task) :: q) ++ post.flatten) ++
      s.executed =
      pre.flatten ++ ((⟨p, s.nextId⟩ : Task) :: (q ++ post.flatten)) ++
        s.executed := by
    simp [List.append_assoc]
  rw [h2]
  refine List.Perm.trans
    (perm_pull_middle pre.flatten (q ++ post.flatten) s.executed _) ?_
  exact List.Perm.cons _ (by simp [List.append_assoc])

/-- Task pool after a `popRun` step: unchanged up to order. -/
theorem allTasks_popRun (s : TaskSystemState)
    (pre post : List (List Task)) (t : Task) (rest : List Task)
    (hq : s.queues = pre ++ (t :: rest) :: post) :
    (AllTasks { running := s.running, queues := pre ++ rest :: post,
                executed := s.executed ++ [t],
                nextId := s.nextId }).Perm (AllTasks s) := by
  unfold AllTasks
  rw [hq]
  simp only [List.flatten_append, List.flatten_cons]
  have hnew : (pre.flatten ++ (rest ++ post.flatten) ++ (s.executed ++ [t])).Perm
      (t :: (pre.flatten ++ (rest ++ post.flatten) ++ s.executed)) := by
    have h1 : pre.flatten ++ (rest ++ post.flatten) ++ (s.executed ++ [t]) =
        pre.flatten ++ (rest ++ post.flatten) ++ s.executed ++ [t] := by
      simp [List.append_assoc]
    rw [h1]
    exact List.perm_append_singleton t _
  have hold : (pre.flatten ++ ((t :: rest) ++ post.flatten) ++ s.executed).Perm
      (t :: (pre.flatten ++ (rest ++ post.flatten) ++ s.executed)) := by
    have h2 : pre.flatten ++ ((t :: rest) ++ post.flatten) ++ s.executed =
        pre.flatten ++ (t :: (rest ++ post.flatten)) ++ s.executed := by
      simp [List.append_assoc]
    rw [h2]
    refine List.Perm.trans
      (perm_pull_middle pre.flatten (rest ++ post.flatten) s.executed t) ?_
    exact List.Perm.refl _
  exact List.Perm.trans hnew hold.symm

/-- Task pool after a `stealRun` step: unchanged up to order. -/
theorem allTasks_stealRun (s : TaskSystemState)
    (pre post : List (List Task)) (q : List Task) (t : Task)
    (hq : s.queues = pre ++ (q ++ [t]) :: post) :
    (AllTasks { running := s.running, queues := pre ++ q :: post,
                executed := s.executed ++ [t],
                nextId := s.nextId }).Perm (AllTasks s) := by
  unfold AllTasks
  rw [hq]
  simp only [List.flatten_append, List.flatten_cons]
  have hnew : (pre.flatten ++ (q ++ post.flatten) ++ (s.executed ++ [t])).Perm
      (t :: (pre.flatten ++ (q ++ post.flatten) ++ s.executed)) := by
    have h1 : pre.flatten ++ (q ++ post.flatten) ++ (s.executed ++ [t]) =
        pre.flatten ++ (q ++ post.flatten) ++ s.executed ++ [t] := by
      simp [List.append_assoc]
    rw [h1]
    exact List.perm_append_singleton t _
  have hold : (pre.flatten ++ ((q ++ [t]) ++ post.flatten) ++ s.executed).Perm
      (t :: (pre.flatten ++ (q ++ post.flatten) ++ s.executed)) := by
    have h2 : (pre.flatten ++ ((q ++ [t]) ++ post.flatten) ++ s.executed).Perm
        (pre.flatten ++ ((t :: q) ++ post.flatten) ++ s.executed) :=
      List.Perm.append_right s.executed
        (List.Perm.append_left pre.flatten
          (List.Perm.append_right post.flatten
            (List.perm_append_singleton t q)))
    refine List.Perm.trans h2 ?_
    have h3 : pre.flatten ++ ((t :: q) ++ post.flatten) ++ s.executed =
        pre.flatten ++ (t :: (q ++ post.flatten)) ++ s.executed := by
      simp [List.append_assoc]
    rw [h3]
    exact perm_pull_middle pre.flatten (q ++ post.flatten) s.executed t
  exact List.Perm.trans hnew hold.symm

/-- One step preserves the id-distinctness and freshness invariant. -/
theorem sysStep_inv {s s' : TaskSystemState} (h : SysStep s s')
    (hinv : SysInv s) : SysInv s' := by
  rcases hinv with ⟨hnd, hbd⟩
  cases h with
  | schedule p pre post q hq =>
    have hperm := (allTasks_schedule s p pre post q hq).map Task.id
    constructor
    · refine hperm.symm.nodup ?_
      simp only [List.map_cons]
      refine List.nodup_cons.mpr ⟨?_, hnd⟩
      intro hmem
      exact absurd (hbd _ hmem) (Nat.lt_irrefl s.nextId)
    · intro x hx
      have := hperm.mem_iff.mp hx
      simp only [List.map_cons, List.mem_cons] at this
      rcases this with rfl | hx'
      · exact Nat.lt_succ_self _
      · exact Nat.lt_succ_of_lt (hbd x hx')
  | popRun pre post t rest hr hq =>
    have hperm := (allTasks_popRun s pre post t rest hq).map Task.id
    exact ⟨hperm.symm.nodup hnd, fun x hx => hbd x (hperm.mem_iff.mp hx)⟩
  | stealRun pre post q t hr hq =>
    have hperm := (allTasks_stealRun s pre post q t hq).map Task.id
    exact ⟨hperm.symm.nodup hnd, fun x hx => hbd x (hperm.mem_iff.mp hx)⟩
  | shutdown =>
    have hsub : (AllIds (ShutdownInternal s)).Sublist (AllIds s) := by
      unfold AllIds ShutdownInternal
      simp only [List.flatten_nil, List.nil_append]
      exact List.Sublist.map Task.id (List.sublist_append_right _ _)
    exact ⟨hsub.nodup hnd, fun x hx => hbd x (hsub.mem hx)⟩

/-- The invariant holds in every state reachable by system steps. -/
theorem reach_inv {s s' : TaskSystemState}
    (h : Relation.ReflTransGen SysStep s s') (hinv : SysInv s) : SysInv s' := by
  induction h with
  | refl => exact hinv
  | tail _ hstep ih => exact sysStep_inv hstep ih

/-- Flattening empty queues gives no tasks. -/
theorem flatten_replicate_nil :
    ∀ n : Nat, (List.replicate n ([] : List Task)).flatten = []
  | 0 => rfl
  | n + 1 => by
    rw [List.replicate_succ, List.flatten_cons, List.nil_append]
    exact flatten_replicate_nil n

/-- The freshly initialized scheduler satisfies the invariant. -/
theorem initState_inv (n : Nat) : SysInv (InitState n) := by
  constructor
  · show ((List.replicate n ([] : List Task)).flatten ++ []).map Task.id |>.Nodup
    rw [flatten_replicate_nil n]
    exact List.nodup_nil
  · intro x hx
    have : AllIds (InitState n) = [] := by
      show ((List.replicate n ([] : List Task)).flatten ++ []).map Task.id = []
      rw [flatten_replicate_nil n]
      rfl
    rw [this] at hx
    exact absurd hx (List.not_mem_nil x)

/-- Once the running flag is down and the queues are gone, no step executes
anything: the flag stays down, the queues stay empty, and the execution
history is frozen. -/
theorem executed_frozen {s s' : TaskSystemState}
    (h : Relation.ReflTransGen SysStep s s')
    (hr : s.running = false) (hq : s.queues = []) :
    s'.executed = s.executed ∧ s'.running = false ∧ s'.queues = [] := by
  induction h with
  | refl => exact ⟨rfl, hr, hq⟩
  | tail hsteps hstep ih =>
    rcases ih with ⟨he, hr', hq'⟩
    cases hstep with
    | schedule p pre post q hq2 =>
      rw [hq'] at hq2
      exact absurd hq2.symm (List.append_ne_nil_of_right_ne_nil pre
        (List.cons_ne_nil q post))
    | popRun pre post t rest hr2 hq2 =>
      rw [hr'] at hr2
      exact absurd hr2 (by simp)
    | stealRun pre post q t hr2 hq2 =>
      rw [hr'] at hr2
      exact absurd hr2 (by simp)
    | shutdown =>
      exact ⟨he, rfl, rfl⟩

/-- C8: `Shutdown` clears the running flag, releases every queue, and
invokes nothing while doing so; any task still queued at that moment —
distinct, by the reachable-state invariant, from everything already
executed — is silently dropped: no state reachable after the shutdown ever
has it in the execution history, i.e. its callable is never invoked. -/
theorem shutdown_drops_queued_tasks (n : Nat) (s0 : TaskSystemState)
    (hreach : Relation.ReflTransGen SysStep (InitState n) s0)
    (t : Task) (qi : List Task) (hqi : qi ∈ s0.queues) (ht : t ∈ qi) :
    (ShutdownInternal s0).running = false ∧
      (ShutdownInternal s0).queues = [] ∧
      (ShutdownInternal s0).executed = s0.executed ∧
      ∀ s2, Relation.ReflTransGen SysStep (ShutdownInternal s0) s2 →
        t.id ∉ s2.executed.map Task.id := by
  have hinv := reach_inv hreach (initState_inv n)
  rcases hinv with ⟨hnd, _⟩
  have htq : t ∈ s0.queues.flatten := List.mem_flatten.mpr ⟨qi, hqi, ht⟩
  have htid : t.id ∈ s0.queues.flatten.map Task.id := List.mem_map_of_mem _ htq
  have hnotex : t.id ∉ s0.executed.map Task.id := by
    have hnd' : (s0.queues.flatten.map Task.id ++
        s0.executed.map Task.id).Nodup := by
      have : AllIds s0 = s0.queues.flatten.map Task.id ++
          s0.executed.map Task.id := by
        unfold AllIds
        exact List.map_append Task.id _ _
      rw [← this]
      exact hnd
    exact (List.nodup_append.mp hnd').2.2 htid
  refine ⟨rfl, rfl, rfl, ?_⟩
  intro s2 hs2
  have hfr := executed_frozen hs2 rfl rfl
  rw [hfr.1]
  exact hnotex

/-- Witness for C8: from a one-worker scheduler holding the single queued
task ⟨Normal, 0⟩, the shutdown transition clears the flag and queues,
executes nothing, and the task is absent from the execution history of the
post-shutdown state itself. -/
theorem shutdown_drops_queued_tasks_witness :
    (ShutdownInternal ⟨true, [[⟨.Normal, 0⟩]], [], 1⟩).running = false ∧
      (ShutdownInternal ⟨true, [[⟨.Normal, 0⟩]], [], 1⟩).queues = [] ∧
      (ShutdownInternal ⟨true, [[⟨.Normal, 0⟩]], [], 1⟩).executed =
        ([] : List Task) ∧
      (⟨.Normal, 0⟩ : Task).id ∉
        (ShutdownInternal ⟨true, [[⟨.Normal, 0⟩]], [], 1⟩).executed.map
          Task.id := by
  have h := shutdown_drops_queued_tasks 1 ⟨true, [[⟨.Normal, 0⟩]], [], 1⟩
    (Relation.ReflTransGen.single
      (SysStep.schedule (InitState 1) .Normal [] [] [] rfl))
    ⟨.Normal, 0⟩ [⟨.Normal, 0⟩] (by decide) (by decide)
  exact ⟨h.1, h.2.1, h.2.2.1, h.2.2.2 (ShutdownInternal ⟨true, [[⟨.Normal, 0⟩]], [], 1⟩)
    Relation.ReflTransGen.refl⟩

/-- Task A of the priority-ordering scenario: priority Low, submitted first. -/
def taskA : Task := ⟨.Low, 0⟩

/-- Task B of the priority-ordering scenario: priority High, submitted second. -/
def taskB : Task := ⟨.High, 1⟩

/-- Task C of the priority-ordering scenario: priority Normal, submitted third. -/
def taskC : Task := ⟨.Normal, 2⟩

/-- C3: with one worker there is a single queue; submitting A(Low), B(High),
C(Normal) in that order leaves the queue as [B, C, A], and the worker's
repeated uncontended front pops (`TryPopTask`) execute B, then C, then A. -/
theorem single_worker_priority_order :
    PushTask taskC (PushTask taskB (PushTask taskA [])) = [taskB, taskC, taskA] ∧
    TryPopTask true [taskB, taskC, taskA] = some (taskB, [taskC, taskA]) ∧
    TryPopTask true [taskC, taskA] = some (taskC, [taskA]) ∧
    TryPopTask true [taskA] = some (taskA, []) := by
  decide

end MyEngine
